import Mathlib

/-! Verification development for the trader_tools moving-average pipeline.

This file gives a shallow embedding of the core of
`src/ma/okx_ma_fetch.py`, `src/ma/demo01.py` and `src/ma/ma_trend.py`:
the date arithmetic behind `calc_ma_start_dates`, the rolling-mean
aggregator `_rolling_mean`, the pagination driver `fetch_candles`, the
retrying HTTP client `_okx_get` modulo an injected transport, and the
CSV trend comparison `calc_ma_trend`.  Close prices (Python floats fed
through exact decimal text) are modelled as rationals; millisecond
timestamps as integers; Python exceptions as `Option`/`Except`; the
network as an injected pure function.  Theorems about these definitions
settle the specification claims. -/

set_option maxRecDepth 8000

instance {e a : Type} [DecidableEq e] [DecidableEq a] : DecidableEq (Except e a) := fun x y =>
  match x, y with
  | Except.error e1, Except.error e2 =>
    match decEq e1 e2 with
    | isTrue h => isTrue (congrArg Except.error h)
    | isFalse h => isFalse (fun hc => h (by injection hc))
  | Except.error _, Except.ok _ => isFalse (fun hc => Except.noConfusion hc)
  | Except.ok _, Except.error _ => isFalse (fun hc => Except.noConfusion hc)
  | Except.ok x1, Except.ok y1 =>
    match decEq x1 y1 with
    | isTrue h => isTrue (congrArg Except.ok h)
    | isFalse h => isFalse (fun hc => h (by injection hc))

/-- Gregorian leap-year test, as used by Python's datetime module. -/
def isLeapYear (y : ℕ) : Bool := (y % 4 == 0 && y % 100 != 0) || y % 400 == 0

/-- Cumulative days before month `m` in a non-leap year (months 1-12). -/
def dbmTable : ℕ → ℕ
  | 2 => 31
  | 3 => 59
  | 4 => 90
  | 5 => 120
  | 6 => 151
  | 7 => 181
  | 8 => 212
  | 9 => 243
  | 10 => 273
  | 11 => 304
  | 12 => 334
  | _ => 0

/-- Number of days in month `m` of year `y` (Gregorian, Python calendar rules). -/
def daysInMonth (y m : ℕ) : ℕ :=
  if m = 2 then (if isLeapYear y then 29 else 28)
  else if m = 4 ∨ m = 6 ∨ m = 9 ∨ m = 11 then 30
  else 31

/-- Days before month `m` of year `y` (leap day included for months past February). -/
def daysBeforeMonth (y m : ℕ) : ℕ :=
  dbmTable m + (if 2 < m ∧ isLeapYear y = true then 1 else 0)

/-- Proleptic-Gregorian ordinal of a date, as Python's `date.toordinal`:
0001-01-01 is day 1. -/
def ymd2ord (y m d : ℕ) : ℕ :=
  365 * (y - 1) + ((y - 1) / 4 - (y - 1) / 100 + (y - 1) / 400) + daysBeforeMonth y m + d

/-- A naive `datetime.datetime` at hour resolution, as produced by
`datetime.strptime(value, "%Y%m%d%H")`. -/
structure PyDateTime where
  year : ℕ
  month : ℕ
  day : ℕ
  hour : ℕ
deriving DecidableEq, Repr

/-- Absolute hour count of a datetime: hours since 0001-01-01 00:00.
Python's datetime arithmetic is exactly arithmetic on this count (it goes
through `toordinal`), so "minus k hours" means this count decreasing by `k`. -/
def toHours (dt : PyDateTime) : ℕ :=
  (ymd2ord dt.year dt.month dt.day - 1) * 24 + dt.hour

/-- The field ranges `datetime.datetime` enforces (year at least `MINYEAR = 1`). -/
def ValidDT (dt : PyDateTime) : Prop :=
  1 ≤ dt.year ∧ 1 ≤ dt.month ∧ dt.month ≤ 12 ∧ 1 ≤ dt.day ∧
    dt.day ≤ daysInMonth dt.year dt.month ∧ dt.hour ≤ 23

instance (dt : PyDateTime) : Decidable (ValidDT dt) := by
  unfold ValidDT; infer_instance

/-- Modelled from the spec: one hour earlier on the proleptic Gregorian
calendar (what Python's `datetime - timedelta` computes via ordinals),
with `none` when the result would precede 0001-01-01 00:00, where Python
raises `OverflowError`. -/
def predHour (dt : PyDateTime) : Option PyDateTime :=
  if 0 < dt.hour then some ⟨dt.year, dt.month, dt.day, dt.hour - 1⟩
  else if 1 < dt.day then some ⟨dt.year, dt.month, dt.day - 1, 23⟩
  else if 1 < dt.month then some ⟨dt.year, dt.month - 1, daysInMonth dt.year (dt.month - 1), 23⟩
  else if 1 < dt.year then some ⟨dt.year - 1, 12, 31, 23⟩
  else none

/-- Subtraction of `k` hours: `end_dt - timedelta(hours=k)`. -/
def subHours (dt : PyDateTime) : ℕ → Option PyDateTime
  | 0 => some dt
  | k + 1 => (predHour dt).bind (fun e => subHours e k)

/-- Decimal rendering of `n` left-padded with zeros to width `w`. -/
def padNum (w n : ℕ) : String :=
  let s := Nat.repr n
  String.mk (List.replicate (w - s.length) '0' ++ s.data)

/-- `strftime("%Y%m%d%H")` of an hour-resolution datetime. -/
def formatDT (dt : PyDateTime) : String :=
  padNum 4 dt.year ++ padNum 2 dt.month ++ padNum 2 dt.day ++ padNum 2 dt.hour

/-- Numeric value of a digit string. -/
def digitsVal (cs : List Char) : ℕ := cs.foldl (fun a c => 10 * a + (c.toNat - 48)) 0

/-- `parse_yyyymmddhh` from src/ma/demo01.py: `strptime(value, "%Y%m%d%H")`,
i.e. exactly ten digits (four-digit year) whose fields form a valid
datetime; anything else raises `ValueError`, modelled by `none`. -/
def parse_yyyymmddhh (s : String) : Option PyDateTime :=
  let cs := s.data
  if cs.length = 10 ∧ cs.all Char.isDigit = true then
    let dt : PyDateTime := ⟨digitsVal (cs.take 4), digitsVal ((cs.drop 4).take 2),
      digitsVal ((cs.drop 6).take 2), digitsVal ((cs.drop 8).take 2)⟩
    if ValidDT dt then some dt else none
  else none

/-- The `MaStartDates` dataclass of src/ma/demo01.py. -/
structure MaStartDates where
  ma30_start : String
  ma60_start : String
deriving DecidableEq, Repr

/-- `calc_ma_start_dates` from src/ma/demo01.py: start = end - (N-1) hours
for N in 30, 60, each formatted back as YYYYMMDDhh; `none` models the
`OverflowError` Python raises when a subtraction leaves the datetime range. -/
def calc_ma_start_dates (endDt : PyDateTime) : Option MaStartDates :=
  match subHours endDt 29, subHours endDt 59 with
  | some a, some b => some ⟨formatDT a, formatDT b⟩
  | _, _ => none

/-- Civil date (year, month, day) of a count of days since 1970-01-01, the
conversion `datetime.fromtimestamp(_, tz=timezone.utc)` performs. -/
def civilFromDays (z0 : ℤ) : ℤ × ℤ × ℤ :=
  let z := z0 + 719468
  let era := z.fdiv 146097
  let doe := z - era * 146097
  let yoe := (doe - doe.fdiv 1460 + doe.fdiv 36524 - doe.fdiv 146096).fdiv 365
  let doy := doe - (365 * yoe + yoe.fdiv 4 - yoe.fdiv 100)
  let mp := (5 * doy + 2).fdiv 153
  let dd := doy - (153 * mp + 2).fdiv 5 + 1
  let mm := mp + (if mp < 10 then 3 else -9)
  (yoe + era * 400 + (if mm ≤ 2 then 1 else 0), mm, dd)

/-- `_format_ts` from src/ma/okx_ma_fetch.py: the UTC datetime of a
millisecond epoch timestamp rendered with `OUTPUT_FMT = "%Y%m%d%H"`. -/
def format_ts (tsMs : ℤ) : String :=
  let hours := tsMs.fdiv 3600000
  let c := civilFromDays (hours.fdiv 24)
  padNum 4 c.1.toNat ++ padNum 2 c.2.1.toNat ++ padNum 2 c.2.2.toNat ++
    padNum 2 (hours.emod 24).toNat

/-- A raw candle as `build_rows` consumes it: `(int(item[0]), float(item[4]))`,
the millisecond timestamp and the close price. -/
abbrev RawCandle := ℤ × ℚ

/-- The loop of `_rolling_mean` from src/ma/okx_ma_fetch.py: a FIFO `queue`
of close prices with a `running_sum`; returns the list of dict insertions
`results[ts] = running_sum / window` in the order they happen.  This is the
exact-arithmetic idealization: the program's binary64 float arithmetic is
replaced by exact rationals.  The float-faithful model, over which the
incremental running sum can differ from the from-scratch sum by rounding,
is `rollingMeanGo64` below. -/
def rollingMeanGo (w : ℕ) : List ℚ → ℚ → List (ℤ × ℚ) → List (ℤ × ℚ)
  | _, _, [] => []
  | q, s, (ts, v) :: rest =>
    let q1 := q ++ [v]
    let s1 := s + v
    let q2 := if w < q1.length then q1.drop 1 else q1
    let s2 := if w < q1.length then s1 - q1.headD 0 else s1
    (if q2.length = w then [(ts, s2 / (w : ℚ))] else []) ++ rollingMeanGo w q2 s2 rest

/-- `_rolling_mean(values, window)`: the emitted (timestamp, mean) pairs. -/
def rolling_mean (vs : List (ℤ × ℚ)) (w : ℕ) : List (ℤ × ℚ) :=
  rollingMeanGo w [] 0 vs

/-- Python dict lookup over the list of insert events: the last write wins. -/
def dictLookup (l : List (ℤ × ℚ)) (t : ℤ) : Option ℚ :=
  (l.reverse.find? (fun p => p.1 == t)).map (fun p => p.2)

/-- Modelled from the spec's words: emit a mean for the i-th sample's
timestamp exactly once at least `window` samples have been seen, the mean
being the arithmetic mean of the `window` most recent values, each window
sum computed from scratch.  `hist` is the list of values seen so far. -/
def rollingMeanSpecGo (w : ℕ) (hist : List ℚ) : List (ℤ × ℚ) → List (ℤ × ℚ)
  | [] => []
  | (ts, v) :: rest =>
    let h1 := hist ++ [v]
    (if w ≤ h1.length then [(ts, ((h1.drop (h1.length - w)).sum) / (w : ℚ))] else []) ++
      rollingMeanSpecGo w h1 rest

/-- The from-scratch rolling mean the spec describes. -/
def rollingMeanSpec (vs : List (ℤ × ℚ)) (w : ℕ) : List (ℤ × ℚ) :=
  rollingMeanSpecGo w [] vs

/-- A binary64 floating-point value, as an integer pair `(m, e)` denoting
`m * 2^e` with `|m| ≤ 2^53`.  The exponent is unbounded, which agrees with
binary64 wherever neither overflow nor subnormals arise (all values these
claims evaluate are far inside that range). -/
abbrev F64 := ℤ × ℤ

/-- Scale the positive rational `p / q` into `[2^52, 2^53)` by doubling one
side at a time, then round the quotient to the nearest integer with ties to
even: the correctly rounded binary64 value of `p / q`, as `float` parsing
and float division produce.  The fuel bounds the scaling search. -/
def floatOfRatGo : ℕ → ℤ → ℤ → ℤ → F64
  | 0, p, _, e => (p, e)
  | fuel + 1, p, q, e =>
    if p < 2 ^ 52 * q then floatOfRatGo fuel (2 * p) q (e - 1)
    else if 2 ^ 53 * q ≤ p then floatOfRatGo fuel p (2 * q) (e + 1)
    else
      let quot := p / q
      let r := p % q
      let m := if 2 * r < q then quot
        else if q < 2 * r then quot + 1
        else (if quot % 2 = 0 then quot else quot + 1)
      (m, e)

/-- The binary64 value nearest to the positive rational `p / q` (ties to
even): `float("0.1")` is `floatOfRat 1 10`. -/
def floatOfRat (p q : ℤ) : F64 := floatOfRatGo 4400 p q 0

/-- Number of excess bits of a magnitude beyond 53 bits. -/
def excessBits : ℕ → ℕ → ℕ → ℕ
  | 0, _, d => d
  | fuel + 1, a, d => if a < 2 ^ (53 + d) then d else excessBits fuel a (d + 1)

/-- Round the exact value `M * 2^e` to 53 significant bits, to nearest with
ties to even (sign-magnitude, as IEEE 754 rounds). -/
def fnorm (M : ℤ) (e : ℤ) : F64 :=
  let a := M.natAbs
  let d := excessBits 2200 a 0
  if d = 0 then (M, e)
  else
    let sgn : ℤ := if M < 0 then -1 else 1
    let quot := (a : ℤ) / 2 ^ d
    let r := (a : ℤ) % 2 ^ d
    let half : ℤ := 2 ^ (d - 1)
    let m := if r < half then quot
      else if half < r then quot + 1
      else (if quot % 2 = 0 then quot else quot + 1)
    if m = 2 ^ 53 then (sgn * 2 ^ 52, e + d + 1) else (sgn * m, e + d)

/-- Binary64 addition: the exact sum, rounded once (IEEE 754 addition is
the correctly rounded exact sum). -/
def fadd (x y : F64) : F64 :=
  let e := min x.2 y.2
  fnorm (x.1 * 2 ^ (x.2 - e).toNat + y.1 * 2 ^ (y.2 - e).toNat) e

/-- Binary64 subtraction. -/
def fsub (x y : F64) : F64 := fadd x (-y.1, y.2)

/-- Binary64 division of a float by the natural number `w` (Python converts
the int `window` to float; the quotient is correctly rounded). -/
def fdivNat (x : F64) (w : ℕ) : F64 :=
  if x.1 = 0 then (0, 0)
  else
    let sgn : ℤ := if x.1 < 0 then -1 else 1
    let r := floatOfRatGo 4400 (x.1.natAbs : ℤ) (w : ℤ) 0
    (sgn * r.1, r.2 + x.2)

/-- The loop of `_rolling_mean` over binary64 arithmetic, faithful to the
program's float running sum: same FIFO and emission structure as
`rollingMeanGo`, with `+`, `-` and `/ window` performed as correctly
rounded binary64 operations. -/
def rollingMeanGo64 (w : ℕ) : List F64 → F64 → List (ℤ × F64) → List (ℤ × F64)
  | _, _, [] => []
  | q, s, (ts, v) :: rest =>
    let q1 := q ++ [v]
    let s1 := fadd s v
    let q2 := if w < q1.length then q1.drop 1 else q1
    let s2 := if w < q1.length then fsub s1 (q1.headD (0, 0)) else s1
    (if q2.length = w then [(ts, fdivNat s2 w)] else []) ++ rollingMeanGo64 w q2 s2 rest

/-- `_rolling_mean` over binary64 values (running sum starts at `0.0`). -/
def rolling_mean64 (vs : List (ℤ × F64)) (w : ℕ) : List (ℤ × F64) :=
  rollingMeanGo64 w [] (0, 0) vs

/-- Python `sum` over binary64 values: left fold of float addition from 0. -/
def fsum64 (l : List F64) : F64 := l.foldl fadd (0, 0)

/-- Modelled from the spec's words, over binary64 arithmetic: the mean of
the `window` most recent values with the window sum computed from scratch. -/
def rollingMeanSpec64Go (w : ℕ) (hist : List F64) : List (ℤ × F64) → List (ℤ × F64)
  | [] => []
  | (ts, v) :: rest =>
    let h1 := hist ++ [v]
    (if w ≤ h1.length then [(ts, fdivNat (fsum64 (h1.drop (h1.length - w))) w)] else []) ++
      rollingMeanSpec64Go w h1 rest

/-- The from-scratch binary64 rolling mean. -/
def rollingMeanSpec64 (vs : List (ℤ × F64)) (w : ℕ) : List (ℤ × F64) :=
  rollingMeanSpec64Go w [] vs

/-- Comparison key of `parsed.sort(key=lambda item: item[0])`. -/
def candleLe (a b : RawCandle) : Prop := a.1 ≤ b.1

instance : DecidableRel candleLe := fun a b => inferInstanceAs (Decidable (a.1 ≤ b.1))

instance : IsTotal RawCandle candleLe := ⟨fun a b => Int.le_total a.1 b.1⟩

instance : IsTrans RawCandle candleLe := ⟨fun _ _ _ h1 h2 => Int.le_trans h1 h2⟩

/-- The row-building loop of `build_rows` from src/ma/okx_ma_fetch.py,
before timestamp formatting: sort the parsed candles by timestamp, compute
both rolling means, and keep a `(ts, ma30[ts], ma60[ts])` entry for every
parsed sample whose timestamp is at or after `start_ms` and has both means
defined. -/
def row_entries (candles : List RawCandle) (startMs : ℤ) : List (ℤ × ℚ × ℚ) :=
  let parsed := List.insertionSort candleLe candles
  let ma30 := rolling_mean parsed 30
  let ma60 := rolling_mean parsed 60
  parsed.filterMap (fun p =>
    if p.1 < startMs then none
    else
      match dictLookup ma30 p.1, dictLookup ma60 p.1 with
      | some a, some b => some (p.1, a, b)
      | _, _ => none)

/-- `build_rows(candles, start_ms)`: the emitted rows, timestamps formatted. -/
def build_rows (candles : List RawCandle) (startMs : ℤ) : List (String × ℚ × ℚ) :=
  (row_entries candles startMs).map (fun r => (format_ts r.1, r.2.1, r.2.2))

/-- Modelled from the spec: collapse candles sharing a timestamp to a single
sample per timestamp, keeping the first occurrence (the spec assumes values
for a duplicated timestamp are identical). -/
def dedupByTs (cs : List RawCandle) : List RawCandle :=
  cs.foldl (fun acc c => if acc.any (fun p => p.1 == c.1) then acc else acc ++ [c]) []

/-- Sixty raw candles in which timestamp 0 appears twice (as after two
overlapping pagination batches), all closes equal to 1. -/
def dupCandles : List RawCandle :=
  (0, 1) :: (List.range 59).map (fun i => ((i : ℤ), (1 : ℚ)))

/-- Pagination mode of `fetch_candles`. -/
inductive PagingMode
  | before
  | after
deriving DecidableEq, Repr

/-- The fatal pagination failures `fetch_candles` raises. -/
inductive FetchErr
  | excessivePagination
  | paginationStalled
deriving DecidableEq, Repr

/-- The query parameters of one page request that vary across the loop:
the `before`/`after` cursors (`instId`, `bar` and `limit` are constant). -/
structure PageParams where
  before : Option ℤ
  after : Option ℤ
deriving DecidableEq, Repr

/-- The mutable loop state of `fetch_candles`. -/
structure FetchSt where
  candles : List RawCandle
  before : Option ℤ
  after : Option ℤ
  mode : PagingMode
  lastOldest : Option ℤ
  batches : ℕ
deriving Repr

/-- Outcome of one iteration of the `fetch_candles` while-loop. -/
inductive StepRes
  | done (cs : List RawCandle)
  | failed (e : FetchErr)
  | cont (st : FetchSt)

/-- Parameters sent for the current iteration: each cursor is included only
in its own mode and when it has been set. -/
def mkParams (st : FetchSt) : PageParams :=
  ⟨if st.mode = PagingMode.before then st.before else none,
   if st.mode = PagingMode.after then st.after else none⟩

/-- Tail of the loop body once progress was made: record the new oldest
timestamp, stop when the horizon is covered, otherwise advance the cursor
of the current mode. -/
def fetchAdvance (startMs : ℤ) (st : FetchSt) (candles : List RawCandle)
    (oldest : ℤ) (batches : ℕ) : StepRes :=
  if oldest ≤ startMs then StepRes.done candles
  else
    match st.mode with
    | PagingMode.before =>
      StepRes.cont ⟨candles, some (oldest - 1), st.after, st.mode, some oldest, batches⟩
    | PagingMode.after =>
      StepRes.cont ⟨candles, st.before, some oldest, st.mode, some oldest, batches⟩

/-- One iteration of the `fetch_candles` while-loop (src/ma/okx_ma_fetch.py,
lines 108-155): count the batch, fail past `max_batches`, request a page,
finish on an empty batch, extend the accumulator, and run the
progress/stall check on the batch's oldest timestamp before advancing. -/
def fetchStep (fetchPage : PageParams → List RawCandle) (startMs : ℤ) (maxBatches : ℕ)
    (st : FetchSt) : StepRes :=
  if maxBatches < st.batches + 1 then StepRes.failed FetchErr.excessivePagination
  else
    let batch := fetchPage (mkParams st)
    match batch.getLast? with
    | none => StepRes.done st.candles
    | some lastC =>
      let candles := st.candles ++ batch
      let oldest := lastC.1
      match st.lastOldest with
      | some lo =>
        if lo ≤ oldest then
          match st.mode with
          | PagingMode.before =>
            StepRes.cont ⟨candles, st.before, some oldest, PagingMode.after, none,
              st.batches + 1⟩
          | PagingMode.after => StepRes.failed FetchErr.paginationStalled
        else fetchAdvance startMs st candles oldest (st.batches + 1)
      | none => fetchAdvance startMs st candles oldest (st.batches + 1)

/-- The `fetch_candles` loop, driven by fuel; the batch counter inside the
state, not the fuel, is what stops it (see the fuel-irrelevance theorem). -/
def fetchGo (fetchPage : PageParams → List RawCandle) (startMs : ℤ) (maxBatches : ℕ) :
    ℕ → FetchSt → Except FetchErr (List RawCandle)
  | 0, _ => Except.error FetchErr.excessivePagination
  | fuel + 1, st =>
    match fetchStep fetchPage startMs maxBatches st with
    | StepRes.done cs => Except.ok cs
    | StepRes.failed e => Except.error e
    | StepRes.cont st2 => fetchGo fetchPage startMs maxBatches fuel st2

/-- `fetch_candles(inst_id, bar, start_ms, ..., max_batches, ...)` with the
page fetcher injected: initial state is BEFORE mode, no cursors, no batches. -/
def fetch_candles (fetchPage : PageParams → List RawCandle) (startMs : ℤ)
    (maxBatches : ℕ) : Except FetchErr (List RawCandle) :=
  fetchGo fetchPage startMs maxBatches (maxBatches + 1)
    ⟨[], none, none, PagingMode.before, none, 0⟩

/-- The decoded JSON payload of one OKX response: status `code`, optional
`msg`, and `data` (`none` models a `data` field that is not a list). -/
structure Payload where
  code : String
  msg : Option String
  data : Option (List RawCandle)

/-- Result of one transport attempt: a `URLError`/`SSLError`/`TimeoutError`,
or a decoded payload. -/
inductive Transport
  | fail
  | ok (p : Payload)

/-- The failures `_okx_get` raises. -/
inductive OkxErr
  | networkExhausted
  | noAttempts
  | providerRejected (msg : String)
  | malformed
deriving DecidableEq, Repr

/-- Payload handling after a successful transport attempt: a non-"0" code is
a provider rejection carrying the provider's message, a non-list data field
is a malformed response. -/
def processPayload (p : Payload) : Except OkxErr (List RawCandle) :=
  if p.code ≠ "0" then Except.error (OkxErr.providerRejected (p.msg.getD "未知错误"))
  else
    match p.data with
    | some d => Except.ok d
    | none => Except.error OkxErr.malformed

/-- `RETRY_BACKOFF_SECONDS = 1.5`. -/
def backoffSeconds : ℚ := 3 / 2

/-- The retry loop of `_okx_get` (src/ma/okx_ma_fetch.py, lines 57-76), with
the transport injected as the outcome of each numbered attempt: attempts run
from 1 to `retries`; a transport failure on the final attempt raises the
network-exhausted error, earlier failures sleep `RETRY_BACKOFF_SECONDS *
attempt` (collected in the returned delay list) and retry.  An empty range
(retries = 0) falls into the for-else and raises `noAttempts`. -/
def okxGo (f : ℕ → Transport) (retries : ℕ) :
    ℕ → ℕ → Except OkxErr (List RawCandle) × List ℚ
  | 0, _ => (Except.error OkxErr.noAttempts, [])
  | fuel + 1, attempt =>
    match f attempt with
    | Transport.ok p => (processPayload p, [])
    | Transport.fail =>
      if attempt = retries then (Except.error OkxErr.networkExhausted, [])
      else
        let r := okxGo f retries fuel (attempt + 1)
        (r.1, backoffSeconds * (attempt : ℚ) :: r.2)

/-- `_okx_get(params, timeout, retries, ...)` modulo the injected transport:
returns the result together with the backoff delays slept. -/
def okx_get (f : ℕ → Transport) (retries : ℕ) :
    Except OkxErr (List RawCandle) × List ℚ :=
  okxGo f retries retries 1

/-- A loaded CSV row of src/ma/ma_trend.py: parsed timestamp, ma30, ma60. -/
abbrev TrendRow := PyDateTime × ℚ × ℚ

/-- Sort key of `rows.sort(key=lambda item: item[0])`: datetime order, which
for valid datetimes is the order of absolute hour counts. -/
def rowLe (a b : TrendRow) : Prop := toHours a.1 ≤ toHours b.1

instance : DecidableRel rowLe := fun a b =>
  inferInstanceAs (Decidable (toHours a.1 ≤ toHours b.1))

instance : IsTotal TrendRow rowLe := ⟨fun a b => Nat.le_total (toHours a.1) (toHours b.1)⟩

instance : IsTrans TrendRow rowLe := ⟨fun _ _ _ h1 h2 => Nat.le_trans h1 h2⟩

/-- The `ValueError`s `calc_ma_trend` can raise on a well-formed dataset. -/
inductive TrendErr
  | noRows
  | insufficientRows
deriving DecidableEq, Repr

/-- The `MaTrendResult` dataclass of src/ma/ma_trend.py. -/
structure MaTrendResult where
  input : String
  latest_ts : String
  prev_ts : String
  ma30_latest : ℚ
  ma30_prev : ℚ
  ma30_trend : String
  ma60_latest : ℚ
  ma60_prev : ℚ
  ma60_trend : String
deriving DecidableEq, Repr

/-- `_trend_label(latest, previous)` from src/ma/ma_trend.py. -/
def trend_label (latest previous : ℚ) : String :=
  if previous < latest then "up"
  else if latest < previous then "down"
  else "flat"

/-- The `MaTrendResult` literal `calc_ma_trend` builds from the latest and
previous qualifying rows. -/
def mkTrendResult (endDt : PyDateTime) (latest previous : TrendRow) : MaTrendResult :=
  ⟨formatDT endDt, formatDT latest.1, formatDT previous.1,
   latest.2.1, previous.2.1, trend_label latest.2.1 previous.2.1,
   latest.2.2, previous.2.2, trend_label latest.2.2 previous.2.2⟩

/-- `calc_ma_trend(end_dt, csv_path)` from src/ma/ma_trend.py, starting from
the loaded rows: `load_ma_csv` raises on an empty dataset, the rows are
sorted ascending by timestamp, rows after `end_dt` are dropped, fewer than
two survivors is a usage error, and the result is built from the last two
survivors (`filtered[-1]` and `filtered[-2]`). -/
def calc_ma_trend (rows : List TrendRow) (endDt : PyDateTime) :
    Except TrendErr MaTrendResult :=
  if rows = [] then Except.error TrendErr.noRows
  else
    let sorted := List.insertionSort rowLe rows
    let filtered := sorted.filter (fun it => decide (toHours it.1 ≤ toHours endDt))
    match filtered.dropLast.getLast?, filtered.getLast? with
    | some previous, some latest => Except.ok (mkTrendResult endDt latest previous)
    | _, _ => Except.error TrendErr.insufficientRows

/-- The input CSV of the spec's end-to-end trend scenario. -/
def demoRows : List TrendRow :=
  [(⟨2025, 1, 28, 0⟩, 10, 20), (⟨2025, 1, 28, 1⟩, 12, 22)]

/-- The queried end time of the spec's end-to-end trend scenario. -/
def demoEnd : PyDateTime := ⟨2025, 1, 28, 1⟩

/-- The result of the spec's end-to-end trend scenario. -/
def demoResult : MaTrendResult :=
  ⟨"2025012801", "2025012801", "2025012800", 12, 10, "up", 22, 20, "up"⟩

/-! Theorems.  First the calendar arithmetic behind `calc_ma_start_dates`. -/

theorem dbm_add_dim (y m : ℕ) (h1 : 2 ≤ m) (h2 : m ≤ 12) :
    daysBeforeMonth y (m - 1) + daysInMonth y (m - 1) = daysBeforeMonth y m := by
  interval_cases m <;>
    by_cases hl : isLeapYear y = true <;>
      simp [daysBeforeMonth, daysInMonth, dbmTable, hl]

theorem leap_step (n : ℕ) :
    (n + 1) / 4 - (n + 1) / 100 + (n + 1) / 400 =
      n / 4 - n / 100 + n / 400 + (if isLeapYear (n + 1) = true then 1 else 0) := by
  by_cases hl : isLeapYear (n + 1) = true
  · rw [if_pos hl]
    simp only [isLeapYear, Bool.or_eq_true, Bool.and_eq_true, beq_iff_eq, bne_iff_ne,
      ne_eq] at hl
    omega
  · rw [if_neg hl]
    simp only [isLeapYear, Bool.or_eq_true, Bool.and_eq_true, beq_iff_eq, bne_iff_ne,
      ne_eq] at hl
    omega

theorem dbm_jan (y : ℕ) : daysBeforeMonth y 1 = 0 := by
  unfold daysBeforeMonth
  rw [if_neg (fun hc => absurd hc.1 (by omega))]
  rfl

theorem ord_dec31p (n : ℕ) :
    ymd2ord (n + 1) 12 31 + 1 = ymd2ord (n + 2) 1 1 := by
  have hstep := leap_step n
  have h1 := dbm_jan (n + 2)
  by_cases hl : isLeapYear (n + 1) = true
  · have h12 : daysBeforeMonth (n + 1) 12 = 335 := by
      unfold daysBeforeMonth
      rw [if_pos ⟨by omega, hl⟩]
      rfl
    rw [if_pos hl] at hstep
    unfold ymd2ord
    rw [h12, h1, show n + 1 - 1 = n from rfl, show n + 2 - 1 = n + 1 from rfl]
    omega
  · have h12 : daysBeforeMonth (n + 1) 12 = 334 := by
      unfold daysBeforeMonth
      rw [if_neg (fun hc => hl hc.2)]
      rfl
    rw [if_neg hl] at hstep
    unfold ymd2ord
    rw [h12, h1, show n + 1 - 1 = n from rfl, show n + 2 - 1 = n + 1 from rfl]
    omega

theorem ord_dec31 (y : ℕ) (hy : 2 ≤ y) :
    ymd2ord (y - 1) 12 31 + 1 = ymd2ord y 1 1 := by
  obtain ⟨n, rfl⟩ : ∃ n, y = n + 2 := ⟨y - 2, by omega⟩
  rw [show n + 2 - 1 = n + 1 from rfl]
  exact ord_dec31p n

theorem predHour_spec (dt : PyDateTime) (hv : ValidDT dt) (hpos : 0 < toHours dt) :
    ∃ e, predHour dt = some e ∧ ValidDT e ∧ toHours e + 1 = toHours dt := by
  obtain ⟨y, m, d, h⟩ := dt
  simp only [ValidDT] at hv
  obtain ⟨hy, hm1, hm2, hd1, hd2, hh⟩ := hv
  by_cases h0 : 0 < h
  · refine ⟨⟨y, m, d, h - 1⟩, by simp [predHour, h0], ?_, ?_⟩
    · simp only [ValidDT]
      exact ⟨hy, hm1, hm2, hd1, hd2, by omega⟩
    show (ymd2ord y m d - 1) * 24 + (h - 1) + 1 = (ymd2ord y m d - 1) * 24 + h
    omega
  · have hh0 : h = 0 := by omega
    subst hh0
    by_cases hd : 1 < d
    · refine ⟨⟨y, m, d - 1, 23⟩, by simp [predHour, hd], ?_, ?_⟩
      · simp only [ValidDT]
        exact ⟨hy, hm1, hm2, by omega, by omega, by omega⟩
      have hord : ymd2ord y m (d - 1) + 1 = ymd2ord y m d := by
        unfold ymd2ord
        omega
      have hpos1 : 1 ≤ ymd2ord y m (d - 1) := by
        unfold ymd2ord
        omega
      show (ymd2ord y m (d - 1) - 1) * 24 + 23 + 1 = (ymd2ord y m d - 1) * 24 + 0
      omega
    · have hd0 : d = 1 := by omega
      subst hd0
      by_cases hm : 1 < m
      · have hdim : 28 ≤ daysInMonth y (m - 1) := by
          unfold daysInMonth
          split
          · split <;> omega
          · split <;> omega
        have hdbm := dbm_add_dim y m (by omega) hm2
        refine ⟨⟨y, m - 1, daysInMonth y (m - 1), 23⟩, by simp [predHour, hm], ?_, ?_⟩
        · simp only [ValidDT]
          exact ⟨hy, by omega, by omega, by omega, le_refl _, by omega⟩
        have hord : ymd2ord y (m - 1) (daysInMonth y (m - 1)) + 1 = ymd2ord y m 1 := by
          unfold ymd2ord
          omega
        have hpos1 : 1 ≤ ymd2ord y (m - 1) (daysInMonth y (m - 1)) := by
          unfold ymd2ord
          omega
        show (ymd2ord y (m - 1) (daysInMonth y (m - 1)) - 1) * 24 + 23 + 1 =
          (ymd2ord y m 1 - 1) * 24 + 0
        omega
      · have hm0 : m = 1 := by omega
        subst hm0
        have hy2 : 2 ≤ y := by
          by_contra hc
          have hy1 : y = 1 := by omega
          subst hy1
          exact absurd hpos (by decide)
        have hylt : 1 < y := by omega
        refine ⟨⟨y - 1, 12, 31, 23⟩, by simp [predHour, hylt], ?_, ?_⟩
        · simp only [ValidDT]
          exact ⟨by omega, by omega, by omega, by omega, by simp [daysInMonth], by omega⟩
        have hord := ord_dec31 y hy2
        have hpos1 : 1 ≤ ymd2ord (y - 1) 12 31 := by
          unfold ymd2ord
          omega
        show (ymd2ord (y - 1) 12 31 - 1) * 24 + 23 + 1 = (ymd2ord y 1 1 - 1) * 24 + 0
        omega

theorem subHours_spec (k : ℕ) :
    ∀ dt : PyDateTime, ValidDT dt → k ≤ toHours dt →
      ∃ e, subHours dt k = some e ∧ ValidDT e ∧ toHours e + k = toHours dt := by
  induction k with
  | zero => exact fun dt hv _ => ⟨dt, rfl, hv, rfl⟩
  | succ n ih =>
    intro dt hv hk
    obtain ⟨e, he, hev, heh⟩ := predHour_spec dt hv (by omega)
    obtain ⟨f, hf, hfv, hfh⟩ := ih e hev (by omega)
    refine ⟨f, ?_, hfv, by omega⟩
    simp [subHours, he, hf]

theorem parse_valid (s : String) (dt : PyDateTime)
    (h : parse_yyyymmddhh s = some dt) : ValidDT dt := by
  unfold parse_yyyymmddhh at h
  dsimp only at h
  split at h
  · split at h
    · injection h with h2
      subst h2
      assumption
    · exact absurd h (by simp)
  · exact absurd h (by simp)

/-- C3 counterexample: the claim fails as stated at the minimum parseable
end timestamp.  "0001010100" is a valid YYYYMMDDhh string, but subtracting
29 hours (and 59 hours) from 0001-01-01 00:00 leaves the datetime range, so
`calc_ma_start_dates` raises `OverflowError` (modelled `none`) instead of
returning the formatted start dates. -/
theorem c3_counterexample :
    parse_yyyymmddhh "0001010100" = some ⟨1, 1, 1, 0⟩ ∧
    calc_ma_start_dates ⟨1, 1, 1, 0⟩ = none := by
  exact ⟨by decide, by decide⟩

/-- C3 (amended): for every end timestamp parsed from a valid YYYYMMDDhh
string that lies at least 59 hours after 0001-01-01 00:00,
`calc_ma_start_dates` returns ma30_start equal to the end time minus 29
hours and ma60_start equal to the end time minus 59 hours (equality of the
absolute hour counts), each formatted back as YYYYMMDDhh. -/
theorem c3_window_starts (s : String) (dt : PyDateTime)
    (hp : parse_yyyymmddhh s = some dt) (hge : 59 ≤ toHours dt) :
    ∃ a b, subHours dt 29 = some a ∧ subHours dt 59 = some b ∧
      calc_ma_start_dates dt = some ⟨formatDT a, formatDT b⟩ ∧
      toHours a + 29 = toHours dt ∧ toHours b + 59 = toHours dt := by
  have hv := parse_valid s dt hp
  obtain ⟨a, ha, hav, hah⟩ := subHours_spec 29 dt hv (by omega)
  obtain ⟨b, hb, hbv, hbh⟩ := subHours_spec 59 dt hv hge
  refine ⟨a, b, ha, hb, ?_, hah, hbh⟩
  unfold calc_ma_start_dates
  rw [ha, hb]

theorem c3_window_starts_witness :
    parse_yyyymmddhh "2025012816" = some ⟨2025, 1, 28, 16⟩ ∧
    59 ≤ toHours ⟨2025, 1, 28, 16⟩ ∧
    ∃ a b, subHours ⟨2025, 1, 28, 16⟩ 29 = some a ∧
      subHours ⟨2025, 1, 28, 16⟩ 59 = some b ∧
      calc_ma_start_dates ⟨2025, 1, 28, 16⟩ = some ⟨formatDT a, formatDT b⟩ ∧
      toHours a + 29 = toHours ⟨2025, 1, 28, 16⟩ ∧
      toHours b + 59 = toHours ⟨2025, 1, 28, 16⟩ :=
  ⟨by decide, by decide,
    c3_window_starts "2025012816" ⟨2025, 1, 28, 16⟩ (by decide) (by decide)⟩

/-- C4 counterexample: for the end time "2025012816" the code returns
ma60_start = "2025012605" (2025-01-28 16:00 minus 59 hours is 2025-01-26
05:00), not the "2025012601" the claim states. -/
theorem c4_counterexample :
    parse_yyyymmddhh "2025012816" = some ⟨2025, 1, 28, 16⟩ ∧
    calc_ma_start_dates ⟨2025, 1, 28, 16⟩ = some ⟨"2025012711", "2025012605"⟩ ∧
    calc_ma_start_dates ⟨2025, 1, 28, 16⟩ ≠ some ⟨"2025012711", "2025012601"⟩ := by
  refine ⟨by decide, by decide, by decide⟩

/-- C4 (amended): for the input end time "2025012816", `calc_ma_start_dates`
returns ma30_start = "2025012711" and ma60_start = "2025012605". -/
theorem c4_scenario :
    parse_yyyymmddhh "2025012816" = some ⟨2025, 1, 28, 16⟩ ∧
    calc_ma_start_dates ⟨2025, 1, 28, 16⟩ = some ⟨"2025012711", "2025012605"⟩ := by
  exact ⟨by decide, by decide⟩

/-! Lemmas about `calc_ma_trend`. -/

theorem lastTwo_of_two_le {α : Type} (l : List α) (h2 : 2 ≤ l.length) :
    ∃ a b, l.getLast? = some a ∧ l.dropLast.getLast? = some b := by
  have hne : l ≠ [] := by
    intro hc
    subst hc
    simp at h2
  have hdne : l.dropLast ≠ [] := by
    intro hc
    have hl := List.length_dropLast l
    rw [hc] at hl
    simp at hl
    omega
  exact ⟨l.getLast hne, l.dropLast.getLast hdne,
    List.getLast?_eq_getLast_of_ne_nil hne, List.getLast?_eq_getLast_of_ne_nil hdne⟩

theorem calc_ma_trend_eq_ok (rows : List TrendRow) (endDt : PyDateTime)
    (latest previous : TrendRow) (hrows : rows ≠ [])
    (hprev : ((List.insertionSort rowLe rows).filter
      (fun it => decide (toHours it.1 ≤ toHours endDt))).dropLast.getLast? = some previous)
    (hlast : ((List.insertionSort rowLe rows).filter
      (fun it => decide (toHours it.1 ≤ toHours endDt))).getLast? = some latest) :
    calc_ma_trend rows endDt = Except.ok (mkTrendResult endDt latest previous) := by
  unfold calc_ma_trend
  rw [if_neg hrows]
  dsimp only
  rw [hprev, hlast]

theorem calc_ma_trend_eq_error (rows : List TrendRow) (endDt : PyDateTime)
    (hlt : ((List.insertionSort rowLe rows).filter
      (fun it => decide (toHours it.1 ≤ toHours endDt))).length < 2) :
    ∃ e, calc_ma_trend rows endDt = Except.error e := by
  by_cases hrows : rows = []
  · refine ⟨TrendErr.noRows, ?_⟩
    unfold calc_ma_trend
    rw [if_pos hrows]
  · refine ⟨TrendErr.insufficientRows, ?_⟩
    unfold calc_ma_trend
    rw [if_neg hrows]
    dsimp only
    have hD : ((List.insertionSort rowLe rows).filter
        (fun it => decide (toHours it.1 ≤ toHours endDt))).dropLast = [] := by
      have hl := List.length_dropLast ((List.insertionSort rowLe rows).filter
        (fun it => decide (toHours it.1 ≤ toHours endDt)))
      rw [← List.length_eq_zero]
      omega
    rw [hD]
    rfl

theorem calc_ma_trend_ok_inv (rows : List TrendRow) (endDt : PyDateTime) (r : MaTrendResult)
    (h : calc_ma_trend rows endDt = Except.ok r) :
    ∃ latest previous,
      ((List.insertionSort rowLe rows).filter
        (fun it => decide (toHours it.1 ≤ toHours endDt))).getLast? = some latest ∧
      ((List.insertionSort rowLe rows).filter
        (fun it => decide (toHours it.1 ≤ toHours endDt))).dropLast.getLast? = some previous ∧
      r = mkTrendResult endDt latest previous := by
  unfold calc_ma_trend at h
  split at h
  · exact absurd h (by simp)
  · dsimp only at h
    split at h
    · rename_i previous latest heq1 heq2
      refine ⟨latest, previous, heq2, heq1, ?_⟩
      injection h with h2
      exact h2.symm
    · exact absurd h (by simp)

/-- C9: on a well-formed dataset, `calc_ma_trend` raises a usage error
(ValueError) exactly when fewer than 2 loaded rows have a timestamp at or
before the queried end time; otherwise it returns the result built from the
two latest such rows: the ascending-sorted list of qualifying rows splits as
`pre ++ [previous, latest]`, the latest is maximal among all qualifying rows,
and every qualifying row other than those two (the members of `pre`) is at or
before `previous`, so `previous` is the second-latest qualifying row. -/
theorem c9_trend_usage (rows : List TrendRow) (endDt : PyDateTime) :
    ((∃ e, calc_ma_trend rows endDt = Except.error e) ↔
      rows.countP (fun it => decide (toHours it.1 ≤ toHours endDt)) < 2) ∧
    (∀ r, calc_ma_trend rows endDt = Except.ok r →
      ∃ latest previous, latest ∈ rows ∧ previous ∈ rows ∧
        toHours previous.1 ≤ toHours latest.1 ∧
        toHours latest.1 ≤ toHours endDt ∧ toHours previous.1 ≤ toHours endDt ∧
        (∀ x ∈ rows, toHours x.1 ≤ toHours endDt → toHours x.1 ≤ toHours latest.1) ∧
        (∃ pre, (List.insertionSort rowLe rows).filter
            (fun it => decide (toHours it.1 ≤ toHours endDt)) =
            pre ++ [previous, latest] ∧
          ∀ x ∈ pre, toHours x.1 ≤ toHours previous.1) ∧
        r = mkTrendResult endDt latest previous) := by
  have hlen : ((List.insertionSort rowLe rows).filter
      (fun it => decide (toHours it.1 ≤ toHours endDt))).length =
      rows.countP (fun it => decide (toHours it.1 ≤ toHours endDt)) := by
    rw [← List.countP_eq_length_filter]
    exact (List.perm_insertionSort rowLe rows).countP_eq _
  constructor
  · constructor
    · rintro ⟨e, he⟩
      by_contra hc
      push_neg at hc
      have hrows : rows ≠ [] := by
        intro h0
        subst h0
        simp at hc
      obtain ⟨latest, previous, hlast, hprev⟩ :=
        lastTwo_of_two_le ((List.insertionSort rowLe rows).filter
          (fun it => decide (toHours it.1 ≤ toHours endDt))) (by omega)
      have hok := calc_ma_trend_eq_ok rows endDt latest previous hrows hprev hlast
      rw [hok] at he
      exact Except.noConfusion he
    · intro hlt
      exact calc_ma_trend_eq_error rows endDt (by omega)
  · intro r hr
    obtain ⟨latest, previous, hlast, hprev, hreq⟩ := calc_ma_trend_ok_inv rows endDt r hr
    have hFeq : ((List.insertionSort rowLe rows).filter
        (fun it => decide (toHours it.1 ≤ toHours endDt))).dropLast ++ [latest] =
        (List.insertionSort rowLe rows).filter
          (fun it => decide (toHours it.1 ≤ toHours endDt)) :=
      List.dropLast_append_getLast? latest (Option.mem_def.mpr hlast)
    have hDeq : ((List.insertionSort rowLe rows).filter
        (fun it => decide (toHours it.1 ≤ toHours endDt))).dropLast.dropLast ++ [previous] =
        ((List.insertionSort rowLe rows).filter
          (fun it => decide (toHours it.1 ≤ toHours endDt))).dropLast :=
      List.dropLast_append_getLast? previous (Option.mem_def.mpr hprev)
    have hprevMemD : previous ∈ ((List.insertionSort rowLe rows).filter
        (fun it => decide (toHours it.1 ≤ toHours endDt))).dropLast := by
      rw [← hDeq]
      exact List.mem_append_right _ (List.mem_singleton_self previous)
    have hlastMem : latest ∈ (List.insertionSort rowLe rows).filter
        (fun it => decide (toHours it.1 ≤ toHours endDt)) := by
      rw [← hFeq]
      exact List.mem_append_right _ (List.mem_singleton_self latest)
    have hprevMem : previous ∈ (List.insertionSort rowLe rows).filter
        (fun it => decide (toHours it.1 ≤ toHours endDt)) :=
      List.mem_of_mem_dropLast hprevMemD
    have hsorted : ((List.insertionSort rowLe rows).filter
        (fun it => decide (toHours it.1 ≤ toHours endDt))).Pairwise rowLe :=
      (List.sorted_insertionSort rowLe rows).sublist (List.filter_sublist _)
    have hrel : ∀ x ∈ ((List.insertionSort rowLe rows).filter
        (fun it => decide (toHours it.1 ≤ toHours endDt))).dropLast, rowLe x latest := by
      have hs2 := hsorted
      rw [← hFeq] at hs2
      intro x hx
      exact (List.pairwise_append.mp hs2).2.2 x hx latest (List.mem_singleton_self latest)
    have hmemRows : ∀ x, x ∈ (List.insertionSort rowLe rows).filter
        (fun it => decide (toHours it.1 ≤ toHours endDt)) →
        x ∈ rows ∧ toHours x.1 ≤ toHours endDt := by
      intro x hx
      obtain ⟨hx1, hx2⟩ := List.mem_filter.mp hx
      exact ⟨((List.perm_insertionSort rowLe rows).mem_iff).mp hx1, of_decide_eq_true hx2⟩
    obtain ⟨hlr, hlc⟩ := hmemRows latest hlastMem
    obtain ⟨hpr, hpc⟩ := hmemRows previous hprevMem
    have hsplit : (List.insertionSort rowLe rows).filter
        (fun it => decide (toHours it.1 ≤ toHours endDt)) =
        ((List.insertionSort rowLe rows).filter
          (fun it => decide (toHours it.1 ≤ toHours endDt))).dropLast.dropLast ++
          [previous, latest] := by
      conv_lhs => rw [← hFeq, ← hDeq]
      rw [List.append_assoc]
      rfl
    have hsortedD : (((List.insertionSort rowLe rows).filter
        (fun it => decide (toHours it.1 ≤ toHours endDt))).dropLast).Pairwise rowLe :=
      hsorted.sublist (List.dropLast_sublist _)
    have hpre : ∀ x ∈ ((List.insertionSort rowLe rows).filter
        (fun it => decide (toHours it.1 ≤ toHours endDt))).dropLast.dropLast,
        toHours x.1 ≤ toHours previous.1 := by
      have hs2 := hsortedD
      rw [← hDeq] at hs2
      intro x hx
      exact (List.pairwise_append.mp hs2).2.2 x hx previous (List.mem_singleton_self previous)
    refine ⟨latest, previous, hlr, hpr, hrel previous hprevMemD, hlc, hpc, ?_,
      ⟨_, hsplit, hpre⟩, hreq⟩
    intro x hx hxc
    have hxF : x ∈ (List.insertionSort rowLe rows).filter
        (fun it => decide (toHours it.1 ≤ toHours endDt)) :=
      List.mem_filter.mpr ⟨((List.perm_insertionSort rowLe rows).mem_iff).mpr hx,
        decide_eq_true hxc⟩
    rw [← hFeq] at hxF
    rcases List.mem_append.mp hxF with hxD | hxL
    · exact hrel x hxD
    · rw [List.mem_singleton.mp hxL]

theorem c9_trend_usage_witness :
    ∃ latest previous, latest ∈ demoRows ∧ previous ∈ demoRows ∧
      toHours previous.1 ≤ toHours latest.1 ∧
      toHours latest.1 ≤ toHours demoEnd ∧ toHours previous.1 ≤ toHours demoEnd ∧
      (∀ x ∈ demoRows, toHours x.1 ≤ toHours demoEnd → toHours x.1 ≤ toHours latest.1) ∧
      (∃ pre, (List.insertionSort rowLe demoRows).filter
          (fun it => decide (toHours it.1 ≤ toHours demoEnd)) =
          pre ++ [previous, latest] ∧
        ∀ x ∈ pre, toHours x.1 ≤ toHours previous.1) ∧
      demoResult = mkTrendResult demoEnd latest previous :=
  (c9_trend_usage demoRows demoEnd).2 demoResult (by decide)

/-- C10: `_trend_label` is total and three-valued over exact values: "up"
exactly when latest > previous, "down" exactly when latest < previous,
"flat" exactly when they are equal, and no other label occurs; and every
`MaTrendResult` produced by `calc_ma_trend` carries exactly these labels
for both the ma30 and the ma60 columns. -/
theorem c10_trend_label_total :
    (∀ l p : ℚ,
      (trend_label l p = "up" ↔ p < l) ∧
      (trend_label l p = "down" ↔ l < p) ∧
      (trend_label l p = "flat" ↔ l = p) ∧
      (trend_label l p = "up" ∨ trend_label l p = "down" ∨ trend_label l p = "flat")) ∧
    (∀ (rows : List TrendRow) (endDt : PyDateTime) (r : MaTrendResult),
      calc_ma_trend rows endDt = Except.ok r →
      r.ma30_trend = trend_label r.ma30_latest r.ma30_prev ∧
      r.ma60_trend = trend_label r.ma60_latest r.ma60_prev) := by
  constructor
  · intro l p
    unfold trend_label
    rcases lt_trichotomy p l with hlt | heq | hgt
    · rw [if_pos hlt]
      refine ⟨⟨fun _ => hlt, fun _ => rfl⟩,
        ⟨fun hc => absurd hc (by decide), fun hc => absurd hc (lt_asymm hlt)⟩,
        ⟨fun hc => absurd hc (by decide), fun hc => ?_⟩, Or.inl rfl⟩
      subst hc
      exact absurd hlt (lt_irrefl _)
    · subst heq
      rw [if_neg (lt_irrefl _), if_neg (lt_irrefl _)]
      exact ⟨⟨fun hc => absurd hc (by decide), fun hc => absurd hc (lt_irrefl _)⟩,
        ⟨fun hc => absurd hc (by decide), fun hc => absurd hc (lt_irrefl _)⟩,
        ⟨fun _ => rfl, fun _ => rfl⟩, Or.inr (Or.inr rfl)⟩
    · rw [if_neg (lt_asymm hgt), if_pos hgt]
      refine ⟨⟨fun hc => absurd hc (by decide), fun hc => absurd hc (lt_asymm hgt)⟩,
        ⟨fun _ => hgt, fun _ => rfl⟩,
        ⟨fun hc => absurd hc (by decide), fun hc => ?_⟩, Or.inr (Or.inl rfl)⟩
      subst hc
      exact absurd hgt (lt_irrefl _)
  · intro rows endDt r h
    obtain ⟨latest, previous, _, _, hr⟩ := calc_ma_trend_ok_inv rows endDt r h
    subst hr
    exact ⟨rfl, rfl⟩

theorem c10_trend_label_total_witness :
    demoResult.ma30_trend = trend_label demoResult.ma30_latest demoResult.ma30_prev ∧
    demoResult.ma60_trend = trend_label demoResult.ma60_latest demoResult.ma60_prev :=
  c10_trend_label_total.2 demoRows demoEnd demoResult (by decide)

/-! Lemmas about the pagination driver `fetch_candles`. -/

theorem fetchStep_excessive (f : PageParams → List RawCandle) (startMs : ℤ)
    (maxBatches : ℕ) (st : FetchSt) (h : maxBatches ≤ st.batches) :
    fetchStep f startMs maxBatches st = StepRes.failed FetchErr.excessivePagination := by
  unfold fetchStep
  rw [if_pos (by omega)]

theorem fetchStep_cont_batches (f : PageParams → List RawCandle) (startMs : ℤ)
    (maxBatches : ℕ) (st st2 : FetchSt)
    (h : fetchStep f startMs maxBatches st = StepRes.cont st2) :
    st2.batches = st.batches + 1 := by
  unfold fetchStep fetchAdvance at h
  dsimp only at h
  repeat' split at h
  all_goals cases h
  all_goals rfl

theorem fetchStep_keeps_after (f : PageParams → List RawCandle) (startMs : ℤ)
    (maxBatches : ℕ) (st st2 : FetchSt) (hm : st.mode = PagingMode.after)
    (h : fetchStep f startMs maxBatches st = StepRes.cont st2) :
    st2.mode = PagingMode.after := by
  unfold fetchStep fetchAdvance at h
  dsimp only at h
  repeat' split at h
  all_goals cases h
  all_goals first
    | rfl
    | exact hm

theorem fetchGo_fuel_eq (f : PageParams → List RawCandle) (startMs : ℤ) (maxBatches : ℕ) :
    ∀ f1 f2 (st : FetchSt), maxBatches < f1 + st.batches → maxBatches < f2 + st.batches →
      fetchGo f startMs maxBatches f1 st = fetchGo f startMs maxBatches f2 st := by
  intro f1
  induction f1 with
  | zero =>
    intro f2 st h1 h2
    cases f2 with
    | zero => rfl
    | succ k =>
      have hstep := fetchStep_excessive f startMs maxBatches st (by omega)
      simp only [fetchGo, hstep]
  | succ n ih =>
    intro f2 st h1 h2
    cases f2 with
    | zero =>
      have hstep := fetchStep_excessive f startMs maxBatches st (by omega)
      simp only [fetchGo, hstep]
    | succ k =>
      simp only [fetchGo]
      cases hstep : fetchStep f startMs maxBatches st with
      | done cs => rfl
      | failed e => rfl
      | cont st2 =>
        have hb := fetchStep_cont_batches f startMs maxBatches st st2 hstep
        exact ih k st2 (by omega) (by omega)

/-- C5: a batch whose oldest timestamp has not moved strictly older triggers,
in BEFORE mode, a single switch to AFTER mode anchored at the stuck
timestamp with `last_oldest` reset; in AFTER mode it is the fatal
pagination-stalled error; AFTER mode is never left once entered; and the
always-stuck fetch stub drives `fetch_candles` into the stall error. -/
theorem c5_stall_switch :
    (∀ (f : PageParams → List RawCandle) (startMs : ℤ) (maxBatches : ℕ)
        (st : FetchSt) (lastC : RawCandle) (lo : ℤ),
        st.batches + 1 ≤ maxBatches →
        (f (mkParams st)).getLast? = some lastC →
        st.lastOldest = some lo → lo ≤ lastC.1 → st.mode = PagingMode.before →
        fetchStep f startMs maxBatches st =
          StepRes.cont ⟨st.candles ++ f (mkParams st), st.before, some lastC.1,
            PagingMode.after, none, st.batches + 1⟩) ∧
    (∀ (f : PageParams → List RawCandle) (startMs : ℤ) (maxBatches : ℕ)
        (st : FetchSt) (lastC : RawCandle) (lo : ℤ),
        st.batches + 1 ≤ maxBatches →
        (f (mkParams st)).getLast? = some lastC →
        st.lastOldest = some lo → lo ≤ lastC.1 → st.mode = PagingMode.after →
        fetchStep f startMs maxBatches st = StepRes.failed FetchErr.paginationStalled) ∧
    (∀ (f : PageParams → List RawCandle) (startMs : ℤ) (maxBatches : ℕ)
        (st st2 : FetchSt), st.mode = PagingMode.after →
        fetchStep f startMs maxBatches st = StepRes.cont st2 →
        st2.mode = PagingMode.after) ∧
    fetch_candles (fun _ => [((100 : ℤ), (1 : ℚ))]) 0 10 =
      Except.error FetchErr.paginationStalled := by
  refine ⟨?_, ?_, ?_, ?_⟩
  · intro f startMs maxBatches st lastC lo hb hlast hlo hle hmode
    unfold fetchStep
    rw [if_neg (by omega)]
    dsimp only
    rw [hlast]
    dsimp only
    rw [hlo]
    dsimp only
    rw [if_pos hle, hmode]
  · intro f startMs maxBatches st lastC lo hb hlast hlo hle hmode
    unfold fetchStep
    rw [if_neg (by omega)]
    dsimp only
    rw [hlast]
    dsimp only
    rw [hlo]
    dsimp only
    rw [if_pos hle, hmode]
  · exact fun f startMs maxBatches st st2 => fetchStep_keeps_after f startMs maxBatches st st2
  · decide

theorem c5_stall_switch_witness :
    fetchStep (fun _ => [((100 : ℤ), (1 : ℚ))]) 0 10
        ⟨[(100, 1)], some 99, none, PagingMode.before, some 100, 1⟩ =
      StepRes.cont ⟨[(100, 1)] ++ [(100, 1)], some 99, some 100,
        PagingMode.after, none, 2⟩ :=
  c5_stall_switch.1 (fun _ => [(100, 1)]) 0 10
    ⟨[(100, 1)], some 99, none, PagingMode.before, some 100, 1⟩ (100, 1) 100
    (by decide) rfl rfl (by decide) rfl

/-- C6: the loop's result does not depend on the fuel once the fuel exceeds
the remaining batch budget (the batch counter, not the fuel, stops it); a
stub returning an empty first batch yields an empty result with no error;
an empty batch ends the loop returning the accumulator; a progressing batch
reaching the horizon ends the loop returning the accumulator plus the
batch; and the iteration after the max_batches-th request fails with the
excessive-pagination error. -/
theorem c6_pagination_bound :
    (∀ (f : PageParams → List RawCandle) (startMs : ℤ) (maxBatches f1 f2 : ℕ)
        (st : FetchSt),
        maxBatches < f1 + st.batches → maxBatches < f2 + st.batches →
        fetchGo f startMs maxBatches f1 st = fetchGo f startMs maxBatches f2 st) ∧
    (∀ (startMs : ℤ) (maxBatches : ℕ), 0 < maxBatches →
        fetch_candles (fun _ => []) startMs maxBatches = Except.ok []) ∧
    (∀ (f : PageParams → List RawCandle) (startMs : ℤ) (maxBatches : ℕ)
        (st : FetchSt), st.batches + 1 ≤ maxBatches →
        f (mkParams st) = [] →
        fetchStep f startMs maxBatches st = StepRes.done st.candles) ∧
    (∀ (f : PageParams → List RawCandle) (startMs : ℤ) (maxBatches : ℕ)
        (st : FetchSt) (lastC : RawCandle), st.batches + 1 ≤ maxBatches →
        (f (mkParams st)).getLast? = some lastC →
        (∀ lo, st.lastOldest = some lo → lastC.1 < lo) → lastC.1 ≤ startMs →
        fetchStep f startMs maxBatches st =
          StepRes.done (st.candles ++ f (mkParams st))) ∧
    (∀ (f : PageParams → List RawCandle) (startMs : ℤ) (maxBatches : ℕ)
        (st : FetchSt), maxBatches ≤ st.batches →
        fetchStep f startMs maxBatches st = StepRes.failed FetchErr.excessivePagination) := by
  refine ⟨?_, ?_, ?_, ?_, ?_⟩
  · exact fun f startMs maxBatches => fetchGo_fuel_eq f startMs maxBatches
  · intro startMs maxBatches h
    have hstep : fetchStep (fun _ => []) startMs maxBatches
        ⟨[], none, none, PagingMode.before, none, 0⟩ = StepRes.done [] := by
      unfold fetchStep
      dsimp only [List.getLast?]
      rw [if_neg (by omega)]
    unfold fetch_candles
    simp only [fetchGo, hstep]
  · intro f startMs maxBatches st hb hemp
    unfold fetchStep
    rw [if_neg (by omega)]
    dsimp only
    rw [hemp]
    rfl
  · intro f startMs maxBatches st lastC hb hlast hprog hstop
    unfold fetchStep
    rw [if_neg (by omega)]
    dsimp only
    rw [hlast]
    dsimp only
    cases hLO : st.lastOldest with
    | none =>
      dsimp only
      unfold fetchAdvance
      rw [if_pos hstop]
    | some lo =>
      dsimp only
      rw [if_neg (by have := hprog lo hLO; omega)]
      unfold fetchAdvance
      rw [if_pos hstop]
  · exact fun f startMs maxBatches st h => fetchStep_excessive f startMs maxBatches st h

theorem c6_pagination_bound_witness :
    fetch_candles (fun _ => []) 5 7 = Except.ok [] :=
  c6_pagination_bound.2.1 5 7 (by decide)

/-! Lemmas about the retrying HTTP client `_okx_get`. -/

theorem okxGo_all_fail (f : ℕ → Transport) (retries : ℕ) :
    ∀ fuel attempt, 0 < attempt → attempt ≤ retries → attempt + fuel = retries + 1 →
      (∀ a, attempt ≤ a → a ≤ retries → f a = Transport.fail) →
      okxGo f retries fuel attempt =
        (Except.error OkxErr.networkExhausted,
          (List.range' attempt (retries - attempt)).map
            (fun a => backoffSeconds * (a : ℚ))) := by
  intro fuel
  induction fuel with
  | zero =>
    intro attempt h0 hle hsum hfail
    omega
  | succ n ih =>
    intro attempt h0 hle hsum hfail
    have hfa : f attempt = Transport.fail := hfail attempt (le_refl _) hle
    simp only [okxGo, hfa]
    by_cases heq : attempt = retries
    · subst heq
      rw [if_pos rfl]
      simp
    · rw [if_neg heq]
      rw [ih (attempt + 1) (by omega) (by omega) (by omega)
        (fun a ha1 ha2 => hfail a (by omega) ha2)]
      rw [show retries - attempt = (retries - (attempt + 1)) + 1 from by omega,
        List.range'_succ]
      simp

theorem okxGo_reject (f : ℕ → Transport) (retries k : ℕ) (p : Payload) :
    ∀ fuel attempt, 0 < attempt → attempt ≤ k → k ≤ retries → attempt + fuel = retries + 1 →
      (∀ a, attempt ≤ a → a < k → f a = Transport.fail) → f k = Transport.ok p →
      okxGo f retries fuel attempt =
        (processPayload p,
          (List.range' attempt (k - attempt)).map
            (fun a => backoffSeconds * (a : ℚ))) := by
  intro fuel
  induction fuel with
  | zero =>
    intro attempt h0 hak hkr hsum hfail hok
    omega
  | succ n ih =>
    intro attempt h0 hak hkr hsum hfail hok
    by_cases heq : attempt = k
    · subst heq
      simp only [okxGo, hok]
      simp
    · have hfa : f attempt = Transport.fail := hfail attempt (le_refl _) (by omega)
      simp only [okxGo, hfa]
      rw [if_neg (by omega)]
      rw [ih (attempt + 1) (by omega) (by omega) hkr (by omega)
        (fun a ha1 ha2 => hfail a (by omega) ha2) hok]
      rw [show k - attempt = (k - (attempt + 1)) + 1 from by omega,
        List.range'_succ]
      simp

/-- C8: a transport failure is retried with backoff delay equal to the base
delay times the attempt number; exhausting all `retries` attempts yields
the distinct network-exhausted failure (not the raw transport error), with
delays slept after attempts 1 .. retries-1; a provider rejection (payload
code not "0") on any successful transport attempt is raised immediately
carrying the provider's message, consuming no further attempts and sleeping
no further delays. -/
theorem c8_retry_behaviour :
    (∀ (f : ℕ → Transport) (retries : ℕ), 0 < retries →
      (∀ a, 0 < a → a ≤ retries → f a = Transport.fail) →
      okx_get f retries = (Except.error OkxErr.networkExhausted,
        (List.range' 1 (retries - 1)).map (fun a => backoffSeconds * (a : ℚ)))) ∧
    (∀ (f : ℕ → Transport) (retries k : ℕ) (p : Payload), 0 < k → k ≤ retries →
      (∀ a, 0 < a → a < k → f a = Transport.fail) → f k = Transport.ok p →
      p.code ≠ "0" →
      okx_get f retries =
        (Except.error (OkxErr.providerRejected (p.msg.getD "未知错误")),
          (List.range' 1 (k - 1)).map (fun a => backoffSeconds * (a : ℚ)))) := by
  constructor
  · intro f retries h hfail
    unfold okx_get
    exact okxGo_all_fail f retries retries 1 (by omega) (by omega) (by omega) hfail
  · intro f retries k p hk hkr hfail hok hcode
    unfold okx_get
    rw [okxGo_reject f retries k p retries 1 (by omega) hk hkr (by omega) hfail hok]
    unfold processPayload
    rw [if_pos hcode]

theorem c8_retry_behaviour_witness :
    okx_get (fun a => if a = 2 then Transport.ok ⟨"1", some "boom", none⟩
        else Transport.fail) 3 =
      (Except.error (OkxErr.providerRejected "boom"),
        (List.range' 1 1).map (fun a => backoffSeconds * (a : ℚ))) :=
  c8_retry_behaviour.2 _ 3 2 ⟨"1", some "boom", none⟩ (by decide) (by decide)
    (fun a h1 h2 => by interval_cases a; rfl) rfl (by decide)

/-! Lemmas about `_rolling_mean`. -/

theorem rollingGo_eq_specGo (w : ℕ) (hw : 0 < w) :
    ∀ (vs : List (ℤ × ℚ)) (hist q : List ℚ) (s : ℚ),
      q = hist.drop (hist.length - w) → s = q.sum →
      rollingMeanGo w q s vs = rollingMeanSpecGo w hist vs := by
  intro vs
  induction vs with
  | nil => intro hist q s hq hs; rfl
  | cons p rest ih =>
    obtain ⟨ts, v⟩ := p
    intro hist q s hq hs
    simp only [rollingMeanGo, rollingMeanSpecGo]
    by_cases hc : hist.length + 1 ≤ w
    · have hql : q = hist := by
        rw [hq, Nat.sub_eq_zero_of_le (by omega), List.drop_zero]
      subst hql
      have hnlt : ¬ w < (q ++ [v]).length := by
        simp only [List.length_append, List.length_cons, List.length_nil]
        omega
      rw [if_neg hnlt, if_neg hnlt]
      have htail : rollingMeanGo w (q ++ [v]) (s + v) rest =
          rollingMeanSpecGo w (q ++ [v]) rest := by
        refine ih (q ++ [v]) (q ++ [v]) (s + v) ?_ ?_
        · rw [Nat.sub_eq_zero_of_le (by simp; omega), List.drop_zero]
        · rw [hs, List.sum_append, List.sum_cons, List.sum_nil]
          ring
      rw [htail]
      by_cases hemit : (q ++ [v]).length = w
      · rw [if_pos hemit, if_pos (le_of_eq hemit.symm)]
        have hdrop : (q ++ [v]).drop ((q ++ [v]).length - w) = q ++ [v] := by
          rw [hemit, Nat.sub_self, List.drop_zero]
        rw [hdrop, List.sum_append, List.sum_cons, List.sum_nil, hs]
        ring_nf
      · rw [if_neg hemit, if_neg (by
          simp only [List.length_append, List.length_cons, List.length_nil] at hemit ⊢
          omega)]
    · have hwle : w ≤ hist.length := by omega
      have hqlen : q.length = w := by
        rw [hq, List.length_drop]
        omega
      have hqne : q ≠ [] := by
        intro h0
        rw [h0] at hqlen
        simp at hqlen
        omega
      obtain ⟨qh, qt, rfl⟩ : ∃ a l, q = a :: l := by
        cases q with
        | nil => exact absurd rfl hqne
        | cons a l => exact ⟨a, l, rfl⟩
      have hlt : w < (qh :: qt ++ [v]).length := by
        have : (qh :: qt ++ [v]).length = (qh :: qt).length + 1 := by simp
        omega
      rw [if_pos hlt, if_pos hlt]
      have hcons : (qh :: qt) ++ [v] = qh :: (qt ++ [v]) := by simp
      have hdrop1 : ((qh :: qt) ++ [v]).drop 1 = qt ++ [v] := by
        rw [hcons]
        rfl
      have hhead : ((qh :: qt) ++ [v]).headD 0 = qh := by
        rw [hcons]
        rfl
      have hsum2 : s + v - ((qh :: qt) ++ [v]).headD 0 = (qt ++ [v]).sum := by
        rw [hhead, hs, List.sum_cons, List.sum_append, List.sum_cons, List.sum_nil]
        ring
      have hqt : qt ++ [v] = (hist ++ [v]).drop ((hist ++ [v]).length - w) := by
        have hk : (hist ++ [v]).length - w = (hist.length - w) + 1 := by
          simp only [List.length_append, List.length_cons, List.length_nil]
          omega
        rw [hk, List.drop_append_of_le_length (by omega)]
        have : hist.drop (hist.length - w + 1) = qt := by
          have h2 : hist.drop (hist.length - w + 1) =
              (hist.drop (hist.length - w)).drop 1 := by
            rw [List.drop_drop]
          rw [h2, ← hq]
          rfl
        rw [this]
      have hemit2 : (qt ++ [v]).length = w := by
        have : (qh :: qt).length = qt.length + 1 := by simp
        simp only [List.length_append, List.length_cons, List.length_nil] at hqlen ⊢
        omega
      rw [hdrop1, hsum2]
      rw [if_pos hemit2, if_pos (by
        simp only [List.length_append, List.length_cons, List.length_nil]
        omega)]
      rw [← hqt]
      rw [ih (hist ++ [v]) (qt ++ [v]) ((qt ++ [v]).sum) hqt rfl]

theorem specGo_map_fst (w : ℕ) :
    ∀ (vs : List (ℤ × ℚ)) (hist : List ℚ),
      (rollingMeanSpecGo w hist vs).map Prod.fst =
        (vs.drop (w - 1 - hist.length)).map Prod.fst := by
  intro vs
  induction vs with
  | nil => intro hist; simp [rollingMeanSpecGo]
  | cons p rest ih =>
    obtain ⟨ts, v⟩ := p
    intro hist
    simp only [rollingMeanSpecGo]
    by_cases hc : w ≤ (hist ++ [v]).length
    · rw [if_pos hc]
      have h0 : w - 1 - hist.length = 0 := by
        simp only [List.length_append, List.length_cons, List.length_nil] at hc
        omega
      have h1 : w - 1 - (hist ++ [v]).length = 0 := by
        simp only [List.length_append, List.length_cons, List.length_nil]
        omega
      rw [h0, List.drop_zero]
      simp only [List.map_append, List.map_cons, List.map_nil, ih, h1, List.drop_zero]
      rfl
    · rw [if_neg hc]
      simp only [List.length_append, List.length_cons, List.length_nil] at hc
      have hk : w - 1 - hist.length = (w - 1 - (hist ++ [v]).length) + 1 := by
        simp only [List.length_append, List.length_cons, List.length_nil]
        omega
      rw [List.nil_append, ih, hk, List.drop_succ_cons]

theorem rollingGo64_map_fst (w : ℕ) (hw : 0 < w) :
    ∀ (vs : List (ℤ × F64)) (q : List F64) (s : F64), q.length ≤ w →
      (rollingMeanGo64 w q s vs).map Prod.fst =
        (vs.drop (w - 1 - q.length)).map Prod.fst := by
  intro vs
  induction vs with
  | nil =>
    intro q s hq
    simp [rollingMeanGo64]
  | cons p rest ih =>
    obtain ⟨ts, v⟩ := p
    intro q s hq
    simp only [rollingMeanGo64]
    by_cases hc : w < q.length + 1
    · have hqw : q.length = w := by omega
      have hlt : w < (q ++ [v]).length := by
        simp only [List.length_append, List.length_cons, List.length_nil]
        omega
      rw [if_pos hlt, if_pos hlt]
      have hq2 : ((q ++ [v]).drop 1).length = w := by
        simp only [List.length_drop, List.length_append, List.length_cons, List.length_nil]
        omega
      rw [if_pos hq2]
      rw [show w - 1 - q.length = 0 from by omega, List.drop_zero]
      rw [List.map_append, ih ((q ++ [v]).drop 1) _ (le_of_eq hq2)]
      rw [show w - 1 - ((q ++ [v]).drop 1).length = 0 from by rw [hq2]; omega,
        List.drop_zero]
      simp
    · have hnlt : ¬ w < (q ++ [v]).length := by
        simp only [List.length_append, List.length_cons, List.length_nil]
        omega
      rw [if_neg hnlt, if_neg hnlt]
      by_cases hemit : (q ++ [v]).length = w
      · rw [if_pos hemit]
        have hq1 : q.length + 1 = w := by
          simp only [List.length_append, List.length_cons, List.length_nil] at hemit
          omega
        rw [show w - 1 - q.length = 0 from by omega, List.drop_zero]
        rw [List.map_append, ih (q ++ [v]) _ (le_of_eq hemit)]
        rw [show w - 1 - (q ++ [v]).length = 0 from by rw [hemit]; omega, List.drop_zero]
        simp
      · rw [if_neg hemit]
        have hq1 : q.length + 1 < w := by
          simp only [List.length_append, List.length_cons, List.length_nil] at hemit
          omega
        rw [List.nil_append]
        rw [ih (q ++ [v]) _ (by
          simp only [List.length_append, List.length_cons, List.length_nil]
          omega)]
        have hk : w - 1 - q.length = (w - 1 - (q ++ [v]).length) + 1 := by
          simp only [List.length_append, List.length_cons, List.length_nil]
          omega
        rw [hk, List.drop_succ_cons]

/-- C2 counterexample: over the program's binary64 floats the incrementally
maintained running sum does NOT always equal the window sum computed from
scratch.  With closes 0.1, 0.1, 0.1 (each the binary64 nearest to 1/10)
and window 2, the incremental loop emits 7205759403792795 * 2^-56
(0.10000000000000002) for the third sample while the from-scratch mean of
the same window is 7205759403792794 * 2^-56 (0.1): same exponents,
mantissas one apart, so the emitted means genuinely differ in value. -/
theorem c2_counterexample :
    rolling_mean64 [(1, floatOfRat 1 10), (2, floatOfRat 1 10), (3, floatOfRat 1 10)] 2 =
      [(2, (7205759403792794, -56)), (3, (7205759403792795, -56))] ∧
    rollingMeanSpec64 [(1, floatOfRat 1 10), (2, floatOfRat 1 10), (3, floatOfRat 1 10)] 2 =
      [(2, (7205759403792794, -56)), (3, (7205759403792794, -56))] ∧
    ¬ rolling_mean64 [(1, floatOfRat 1 10), (2, floatOfRat 1 10), (3, floatOfRat 1 10)] 2 =
      rollingMeanSpec64 [(1, floatOfRat 1 10), (2, floatOfRat 1 10), (3, floatOfRat 1 10)] 2 := by
  refine ⟨by decide, by decide, by decide⟩

/-- C2 (amended): `_rolling_mean` emits a mean for the i-th sample exactly
when i ≥ window — proved both for the exact-arithmetic model and for the
binary64-faithful model — and over exact (rational) arithmetic the
incrementally maintained running sum equals the window sum computed from
scratch, so the emitted events coincide with the from-scratch
specification; under the program's binary64 arithmetic that equality holds
only up to rounding (see the counterexample). -/
theorem c2_rolling_mean_amended (w : ℕ) (hw : 0 < w) :
    (∀ vs : List (ℤ × ℚ), rolling_mean vs w = rollingMeanSpec vs w ∧
      (rolling_mean vs w).map Prod.fst = (vs.drop (w - 1)).map Prod.fst) ∧
    (∀ vs : List (ℤ × F64), (rolling_mean64 vs w).map Prod.fst =
      (vs.drop (w - 1)).map Prod.fst) := by
  constructor
  · intro vs
    have hmain : rolling_mean vs w = rollingMeanSpec vs w := by
      unfold rolling_mean rollingMeanSpec
      exact rollingGo_eq_specGo w hw vs [] [] 0 (by simp) (by simp)
    refine ⟨hmain, ?_⟩
    rw [hmain]
    unfold rollingMeanSpec
    have := specGo_map_fst w vs []
    simpa using this
  · intro vs
    unfold rolling_mean64
    have := rollingGo64_map_fst w hw vs [] (0, 0) (by simp)
    simpa using this

theorem c2_rolling_mean_amended_witness :
    (rolling_mean [((1 : ℤ), (2 : ℚ)), (2, 4), (3, 6)] 2 =
        rollingMeanSpec [((1 : ℤ), (2 : ℚ)), (2, 4), (3, 6)] 2 ∧
      (rolling_mean [((1 : ℤ), (2 : ℚ)), (2, 4), (3, 6)] 2).map Prod.fst =
        ([((1 : ℤ), (2 : ℚ)), (2, 4), (3, 6)].drop 1).map Prod.fst) ∧
    (rolling_mean64 [((1 : ℤ), floatOfRat 1 10), (2, floatOfRat 1 10),
        (3, floatOfRat 1 10)] 2).map Prod.fst =
      ([((1 : ℤ), floatOfRat 1 10), (2, floatOfRat 1 10),
        (3, floatOfRat 1 10)].drop 1).map Prod.fst :=
  ⟨(c2_rolling_mean_amended 2 (by decide)).1 [(1, 2), (2, 4), (3, 6)],
   (c2_rolling_mean_amended 2 (by decide)).2
     [(1, floatOfRat 1 10), (2, floatOfRat 1 10), (3, floatOfRat 1 10)]⟩

/-! Lemmas about `build_rows`. -/

theorem rollingGo_fst_mem (w : ℕ) :
    ∀ (vs : List (ℤ × ℚ)) (q : List ℚ) (s : ℚ) (t : ℤ) (x : ℚ),
      (t, x) ∈ rollingMeanGo w q s vs → t ∈ vs.map Prod.fst := by
  intro vs
  induction vs with
  | nil =>
    intro q s t x h
    simp [rollingMeanGo] at h
  | cons p rest ih =>
    obtain ⟨ts, v⟩ := p
    intro q s t x h
    simp only [rollingMeanGo] at h
    rw [List.mem_append] at h
    simp only [List.map_cons]
    rcases h with h | h
    · have ht : t = ts := by
        split at h
        all_goals try split at h
        all_goals simp_all
      rw [ht]
      exact List.mem_cons_self _ _
    · exact List.mem_cons_of_mem _ (ih _ _ t x h)

theorem dictLookup_isSome_mem (l : List (ℤ × ℚ)) (t : ℤ)
    (h : (dictLookup l t).isSome = true) : ∃ x, (t, x) ∈ l := by
  unfold dictLookup at h
  cases hf : l.reverse.find? (fun p => p.1 == t) with
  | none => rw [hf] at h; simp at h
  | some pr =>
    have hmem := List.mem_of_find?_eq_some hf
    have hpred := List.find?_some hf
    obtain ⟨p1, p2⟩ := pr
    have hp1 : p1 = t := by simpa using hpred
    subst hp1
    exact ⟨p2, List.mem_reverse.mp hmem⟩

/-- C7: `build_rows` emits a row for a timestamp exactly when that
timestamp is at or after `start_ms` and both the 30-sample and the
60-sample rolling means are defined at it; in particular a timestamp with
a 30-sample mean but no 60-sample mean is dropped. -/
theorem c7_row_emission (candles : List RawCandle) (startMs : ℤ) (t : ℤ) :
    t ∈ (row_entries candles startMs).map Prod.fst ↔
      (startMs ≤ t ∧
        (dictLookup (rolling_mean (List.insertionSort candleLe candles) 30) t).isSome
          = true ∧
        (dictLookup (rolling_mean (List.insertionSort candleLe candles) 60) t).isSome
          = true) := by
  constructor
  · intro h
    obtain ⟨r, hr, hfst⟩ := List.mem_map.mp h
    unfold row_entries at hr
    dsimp only at hr
    obtain ⟨p, hp, heq⟩ := List.mem_filterMap.mp hr
    split at heq
    · exact absurd heq (by simp)
    · rename_i hlt
      split at heq
      · rename_i a b ha hb
        injection heq with h2
        subst h2
        simp only at hfst
        rw [hfst] at ha hb hlt
        exact ⟨by omega, by rw [ha]; rfl, by rw [hb]; rfl⟩
      · exact absurd heq (by simp)
  · rintro ⟨hstart, h30, h60⟩
    obtain ⟨a, ha⟩ := Option.isSome_iff_exists.mp h30
    obtain ⟨b, hb⟩ := Option.isSome_iff_exists.mp h60
    obtain ⟨x, hx⟩ := dictLookup_isSome_mem _ t h30
    have ht : t ∈ (List.insertionSort candleLe candles).map Prod.fst :=
      rollingGo_fst_mem 30 _ [] 0 t x hx
    obtain ⟨p, hp, hpt⟩ := List.mem_map.mp ht
    refine List.mem_map.mpr ⟨(t, a, b), ?_, rfl⟩
    unfold row_entries
    dsimp only
    refine List.mem_filterMap.mpr ⟨p, hp, ?_⟩
    rw [show p.1 = t from hpt]
    rw [if_neg (not_lt.mpr hstart), ha, hb]

theorem c7_row_emission_witness :
    ((58 : ℤ) ∈ (row_entries dupCandles 0).map Prod.fst) ∧
    ((0 : ℤ) ≤ 58 ∧
      (dictLookup (rolling_mean (List.insertionSort candleLe dupCandles) 30) 58).isSome
        = true ∧
      (dictLookup (rolling_mean (List.insertionSort candleLe dupCandles) 60) 58).isSome
        = true) :=
  ⟨(c7_row_emission dupCandles 0 58).mpr ⟨by decide, by decide, by decide⟩,
   (c7_row_emission dupCandles 0 58).mp (by decide)⟩

/-- C1 counterexample: `build_rows` does not collapse candles sharing a
timestamp.  On sixty candles in which one timestamp is duplicated, the
pipeline emits a row (the duplicate fills the 60-sample window) while the
collapsed input has only 59 distinct samples and emits none, so collapsing
before aggregation would change the output. -/
theorem c1_counterexample :
    ¬ (build_rows dupCandles 0 = build_rows (dedupByTs dupCandles) 0) := by
  intro h
  have h1 : (build_rows dupCandles 0).length = 1 := by decide
  have h0 : (build_rows (dedupByTs dupCandles) 0).length = 0 := by decide
  rw [h, h0] at h1
  exact absurd h1 (by decide)

/-- C1 (amended): `build_rows` performs no deduplication by timestamp: the
sequence over which both rolling means are computed and over which rows are
emitted is the timestamp-sorted permutation of all raw candles, its length
equal to the raw count, so every raw candle — duplicated timestamps
included — contributes its own close price to the windows covering it. -/
theorem c1_no_dedup (candles : List RawCandle) :
    (List.insertionSort candleLe candles).Perm candles ∧
    (List.insertionSort candleLe candles).length = candles.length :=
  ⟨List.perm_insertionSort candleLe candles,
    (List.perm_insertionSort candleLe candles).length_eq⟩
